import Mathlib

/-!
Shallow embedding of the `condorcet` Go package (batiazinga/condorcet).

The Go `Election` holds `n int` (number of candidates minus 2) and
`m []uint` (the pairwise sum matrix in row-major order, `nil` until the
lazy `init` runs).  Because `Result()` deep-copies the slice and `Vote`
mutates it in place, slice aliasing is observable; we therefore model the
Go heap of allocated `[]uint` slices explicitly as a `Store` (a list of
matrices) and an election holds an optional reference (index) into it,
`none` standing for the `nil` slice.

Machine integers: the matrix entries are Go `uint` counters that are only
ever incremented one by one; we model them as `Nat` (wrap-around at the
platform word size is unreachable for any property stated here, which the
spec also treats as exact counting).  Ballot entries are Go `int` and may
be negative, so ballots are `List Int`.  The field `n` is a Go `int`, but
the only values the package ever constructs are `New(n)` with `n ≥ 2`
(storing `n-2 ≥ 0`) and the zero value (`0`), so we store it as `Nat`;
`New` takes an `Int` argument as in Go.

A Go runtime panic (indexing a nil or too-short slice) is modelled by
`Option`: `none` is a panic.
-/

namespace Condorcet

/-- The heap of allocated `[]uint` slices: a matrix reference is an index
into this list. -/
abbrev Store := List (List Nat)

/-- Go struct `Election{n int; m []uint}`: `n` is the number of candidates
minus 2, `m` an optional reference to the sum matrix (`none` = nil). -/
structure Election where
  n : Nat
  m : Option Nat
deriving DecidableEq, Repr

/-- Go struct `Result{e *Election}`: an immutable snapshot wrapping the
copied election. -/
structure Result where
  e : Election
deriving DecidableEq, Repr

/-- `New` (election.go): fails for `n < 2`, otherwise returns
`&Election{n: n - 2}`. -/
def New (n : Int) : Except String Election :=
  if n < 2 then Except.error "expecting at least 2 candidates"
  else Except.ok ⟨(n - 2).toNat, none⟩

/-- The zero value `Election{}` of the Go struct: `n = 0`, `m = nil`. -/
def zeroElection : Election := ⟨0, none⟩

/-- `num` (election.go): the number of candidates, `e.n + 2`. -/
def Election.num (e : Election) : Nat := e.n + 2

/-- `initialized` (election.go): is the sum matrix allocated? -/
def Election.initialized (e : Election) : Bool := e.m.isSome

/-- `init` (election.go): allocate an all-zero `n*n` matrix.  In the heap
model this appends a fresh matrix to the store and points `e.m` at it. -/
def Election.init (e : Election) (s : Store) : Election × Store :=
  (⟨e.n, some s.length⟩, s ++ [List.replicate (e.num * e.num) 0])

/-- `index` (election.go): row-major index of the pair `(i, j)`. -/
def Election.index (e : Election) (i j : Nat) : Nat := e.num * i + j

/-- The contents of `e.m`: the empty list for the nil slice (any read of
it then fails, as the Go index panic does). -/
def Election.mat (e : Election) (s : Store) : List Nat :=
  match e.m with
  | none => []
  | some r => s.getD r []

/-- Is `0 ≤ candidate < num`?  (the range test of `Vote`'s first loop). -/
def inRange (num : Nat) (c : Int) : Bool :=
  decide (0 ≤ c) && decide (c < (num : Int))

/-- The validation phase of `Vote` (election.go): length check, range
check, and the per-candidate occurrence counts all equal to 1.  The Go
code builds the `candidates` count array by one increment per entry and
then checks every slot is 1; counting each candidate's occurrences
directly yields the same array slot values. -/
def validBallot (num : Nat) (ballot : List Int) : Bool :=
  ballot.length == num
    && ballot.all (inRange num)
    && (List.range num).all (fun k => ballot.count ((k : Int)) == 1)

/-- One `e.m[k]++` of the fill loop.  `Vote` only executes it with
`k < len(e.m)` (both candidates are validated and the matrix has been
allocated with size `num*num`), where `List.set`/`getD` are exact. -/
def bump (m : List Nat) (k : Nat) : List Nat := m.set k (m.getD k 0 + 1)

/-- The inner fill loop of `Vote`: candidate `bi` (at position `i`) is
preferred to every later candidate `bj` in `rest`. -/
def fillRow (num bi : Nat) (rest : List Nat) (m : List Nat) : List Nat :=
  rest.foldl (fun acc bj => bump acc (num * bi + bj)) m

/-- The double fill loop of `Vote` over the (validated, hence
non-negative) ballot. -/
def fillMatrix (num : Nat) (b : List Nat) (m : List Nat) : List Nat :=
  match b with
  | [] => m
  | bi :: rest => fillMatrix num rest (fillRow num bi rest m)

/-- `Vote` (election.go): validate the ballot, return `false` touching
nothing if it is not a total preference; otherwise lazily allocate the
matrix, run the fill loop in place, and return `true`. -/
def Election.Vote (e : Election) (ballot : List Int) (s : Store) :
    Bool × Election × Store :=
  if validBallot e.num ballot then
    let p := if e.initialized then (e, s) else e.init s
    match p.1.m with
    | some r =>
        (true, p.1, p.2.set r (fillMatrix e.num (ballot.map Int.toNat) (p.1.mat p.2)))
    | none => (true, p.1, p.2)
  else (false, e, s)

/-- The winner-search sweep of `Winner`: `for i := 1; i < num; i++ { if
m[index(w,i)] < m[index(i,w)] { w = i } }`.  A read out of the slice's
range is a panic (`none`).  The loop is encoded structurally on the
remaining iteration count `fuel`; the loop condition `i < num` holds
exactly while `fuel > 0` when `fuel` is started at `num - i`. -/
def sweepF (num : Nat) (m : List Nat) : Nat → Nat → Nat → Option Nat
  | w, _, 0 => some w
  | w, i, fuel + 1 =>
      match m.get? (num * w + i), m.get? (num * i + w) with
      | some a, some b => sweepF num m (if a < b then i else w) (i + 1) fuel
      | _, _ => none

/-- The sweep started at loop counter `i`. -/
def sweep (num : Nat) (m : List Nat) (w i : Nat) : Option Nat :=
  sweepF num m w i (num - i)

/-- The confirmation pass of `Winner`: `w` must strictly beat every other
candidate, a tie (`<=`) means no winner.  Same fuel encoding of the Go
`for i := 0; i < num; i++` loop. -/
def confirmF (num : Nat) (m : List Nat) (w : Nat) : Nat → Nat → Option Bool
  | _, 0 => some true
  | i, fuel + 1 =>
      if i = w then confirmF num m w (i + 1) fuel
      else
        match m.get? (num * w + i), m.get? (num * i + w) with
        | some a, some b =>
            if a ≤ b then some false else confirmF num m w (i + 1) fuel
        | _, _ => none

/-- The confirmation pass started at loop counter 0. -/
def confirm (num : Nat) (m : List Nat) (w : Nat) : Option Bool :=
  confirmF num m w 0 num

/-- The whole `Winner` algorithm, shared verbatim by `Election.Winner`
and `Result.Winner` in the source: sweep from `w = 0`, then confirm; on a
failed confirmation Go's bare `return` yields the current `(w, false)`. -/
def winnerFrom (num : Nat) (m : List Nat) : Option (Nat × Bool) :=
  match sweep num m 0 1 with
  | none => none
  | some w =>
      match confirm num m w with
      | none => none
      | some ok => some (w, ok)

/-- `Winner` on the live election (it reads `e.m` without any
`initialized` check). -/
def Election.Winner (e : Election) (s : Store) : Option (Nat × Bool) :=
  winnerFrom e.num (e.mat s)

/-- `Result` (election.go): lazily allocate, then deep-copy the matrix
contents into a fresh slice; returns the snapshot together with the
(possibly updated, because `init` mutates through the pointer receiver)
live election and heap. -/
def Election.Result (e : Election) (s : Store) : Result × Election × Store :=
  let p := if e.initialized then (e, s) else e.init s
  (⟨⟨p.1.n, some p.2.length⟩⟩, p.1, p.2 ++ [p.1.mat p.2])

/-- `Result.Winner` (result.go): the same algorithm as `Election.Winner`,
duplicated in the source, run on the snapshot's copy. -/
def Result.Winner (r : Result) (s : Store) : Option (Nat × Bool) :=
  winnerFrom r.e.num (r.e.mat s)

/-- Modelled from the spec: `Election.NumVoters` is declared by the
repository (`Result.NumVoters` delegates to it) but its body is not under
`src/`.  The spec fixes its value — "the accumulated count of successfully
ingested ballots" — and its data-model invariant states that for every
pair `{i, j}` the two directed tallies sum to exactly that count; the
`Election` struct stores no separate counter, so the count is read off the
matrix as `tally[0][1] + tally[1][0]` (0 while the matrix is still nil,
matching "an election with zero ballots"). -/
def Election.NumVoters (e : Election) (s : Store) : Nat :=
  (e.mat s).getD (e.index 0 1) 0 + (e.mat s).getD (e.index 1 0) 0

/-- `Result.NumVoters` (result.go): delegates to the election it wraps. -/
def Result.NumVoters (r : Result) (s : Store) : Nat := r.e.NumVoters s

/-- Reading a tally entry: `tally[i][j]` in row-major order (0 for an
unallocated matrix, used on the specification side of the theorems). -/
def tallyAt (num : Nat) (m : List Nat) (i j : Nat) : Nat :=
  m.getD (num * i + j) 0

/-- Specification side of C1: candidate `w` strictly beats every other
candidate in the pairwise tallies. -/
def BeatsAll (num : Nat) (m : List Nat) (w : Nat) : Prop :=
  w < num ∧ ∀ i, i < num → i ≠ w → tallyAt num m i w < tallyAt num m w i

instance (num : Nat) (m : List Nat) (w : Nat) : Decidable (BeatsAll num m w) := by
  unfold BeatsAll; infer_instance

/-- Specification side of C4: the ballot is a permutation of the
candidate indices `0 .. num-1` (as Go ints). -/
def IsPermBallot (num : Nat) (ballot : List Int) : Prop :=
  ballot.Perm ((List.range num).map (Nat.cast : Nat → Int))

instance (num : Nat) (ballot : List Int) : Decidable (IsPermBallot num ballot) := by
  unfold IsPermBallot; infer_instance

/-- Running a sequence of `Vote` calls on the live election. -/
def runVotes (e : Election) (s : Store) : List (List Int) → Election × Store
  | [] => (e, s)
  | b :: bs =>
      let t := e.Vote b s
      runVotes t.2.1 t.2.2 bs

/-- The election `New n` returns for `n ≥ 2`. -/
def fresh (n : Nat) : Election := ⟨n - 2, none⟩

/-- How many ballots of a trace `Vote` accepts (acceptance only depends
on the validation, which is state-independent). -/
def acceptedCount (num : Nat) (bs : List (List Int)) : Nat :=
  (bs.filter fun b => validBallot num b).length

/-- Well-formedness of an election against the heap: its matrix
reference, if any, is allocated and has the `num*num` size `init` gave
it.  Every state the package constructs satisfies it. -/
def WF (e : Election) (s : Store) : Prop :=
  ∀ r, e.m = some r → r < s.length ∧ (s.getD r []).length = e.num * e.num

/-! ### Helper lemmas -/

lemma index_lt_sq {num w i : Nat} (hw : w < num) (hi : i < num) :
    num * w + i < num * num := by
  calc num * w + i < num * w + num := by omega
    _ = num * (w + 1) := by ring
    _ ≤ num * num := Nat.mul_le_mul_left num hw

lemma sweepF_zeros (num : Nat) :
    ∀ (fuel w i : Nat), w < num → i + fuel ≤ num →
      sweepF num (List.replicate (num * num) 0) w i fuel = some w := by
  intro fuel
  induction fuel with
  | zero => intro w i _ _; rfl
  | succ k ih =>
      intro w i hw hi
      have hi' : i < num := by omega
      have h1 : num * w + i < num * num := index_lt_sq hw hi'
      have h2 : num * i + w < num * num := index_lt_sq hi' hw
      simp only [sweepF, List.get?_eq_getElem?, List.getElem?_replicate_of_lt, h1, h2]
      simpa using ih w (i + 1) hw (by omega)

lemma confirm_zeros (num : Nat) (h : 2 ≤ num) :
    confirm num (List.replicate (num * num) 0) 0 = some false := by
  obtain ⟨k, rfl⟩ : ∃ k, num = k + 2 := ⟨num - 2, by omega⟩
  have h1 : (k + 2) * 0 + 1 < (k + 2) * (k + 2) :=
    index_lt_sq (by omega) (by omega)
  have h2 : (k + 2) * 1 + 0 < (k + 2) * (k + 2) :=
    index_lt_sq (by omega) (by omega)
  simp only [confirm, confirmF, List.get?_eq_getElem?,
    List.getElem?_replicate_of_lt, h1, h2]
  simp

lemma winnerFrom_zeros (num : Nat) (h : 2 ≤ num) :
    winnerFrom num (List.replicate (num * num) 0) = some (0, false) := by
  have h1 := sweepF_zeros num (num - 1) 0 1 (by omega) (by omega)
  have h2 := confirm_zeros num h
  simp [winnerFrom, sweep, h1, h2]

lemma getD_append_cons (s : Store) (z : List Nat) (rest : List (List Nat)) :
    (s ++ (z :: rest)).getD s.length [] = z := by
  rw [List.getD_eq_getElem?_getD, List.getElem?_append_right (le_refl _)]
  simp

lemma getD_append_left (s : Store) (rest : List (List Nat)) {r : Nat}
    (h : r < s.length) : (s ++ rest).getD r [] = s.getD r [] := by
  rw [List.getD_eq_getElem?_getD, List.getElem?_append_left h,
    List.getD_eq_getElem?_getD]

/-- `Result()` on an election with a nil matrix: `init` runs (mutating
the live election) and then the zero matrix is copied. -/
lemma result_uninit (e : Election) (s : Store) (h : e.m = none) :
    e.Result s =
      (⟨⟨e.n, some (s.length + 1)⟩⟩, ⟨e.n, some s.length⟩,
        (s ++ [List.replicate (e.num * e.num) 0]) ++
          [List.replicate (e.num * e.num) 0]) := by
  have hinit : e.initialized = false := by simp [Election.initialized, h]
  have hcopy : (⟨e.n, some s.length⟩ : Election).mat
      (s ++ [List.replicate (e.num * e.num) 0]) =
      List.replicate (e.num * e.num) 0 := by
    simp only [Election.mat]
    exact getD_append_cons s _ []
  simp only [Election.Result, hinit, Bool.false_eq_true, if_false,
    Election.init, Election.num] at *
  rw [Prod.ext_iff, Prod.ext_iff]
  refine ⟨?_, rfl, ?_⟩
  · simp
  · rw [hcopy]

/-- `Result()` on an election with an allocated matrix: the live election
and its matrix are untouched, the contents are copied to a fresh slice. -/
lemma result_init (e : Election) (s : Store) (r : Nat) (h : e.m = some r) :
    e.Result s = (⟨⟨e.n, some s.length⟩⟩, e, s ++ [s.getD r []]) := by
  have hinit : e.initialized = true := by simp [Election.initialized, h]
  simp only [Election.Result, hinit, if_true, Election.mat, h]

/-- The candidate indices `0 .. num-1` as Go ints. -/
lemma mem_rangeInts (num : Nat) (a : Int) :
    (a ∈ (List.range num).map (Nat.cast : Nat → Int)) ↔ 0 ≤ a ∧ a < num := by
  rw [List.mem_map]
  constructor
  · rintro ⟨k, hk, rfl⟩
    rw [List.mem_range] at hk
    exact ⟨Int.natCast_nonneg k, by exact_mod_cast hk⟩
  · rintro ⟨h0, h1⟩
    refine ⟨a.toNat, ?_, by omega⟩
    rw [List.mem_range]
    omega

lemma nodup_rangeInts (num : Nat) :
    ((List.range num).map (Nat.cast : Nat → Int)).Nodup :=
  (List.nodup_range num).map Nat.cast_injective

/-- The validation phase of `Vote` succeeds exactly on permutations of
`0 .. num-1`: the length / range / exactly-once checks of the Go code
characterize total preference orders. -/
lemma validBallot_iff_perm (num : Nat) (b : List Int) :
    validBallot num b = true ↔ IsPermBallot num b := by
  unfold validBallot IsPermBallot
  rw [List.perm_iff_count]
  simp only [Bool.and_eq_true, beq_iff_eq, List.all_eq_true, List.mem_range]
  constructor
  · rintro ⟨⟨hl, hr⟩, hc⟩ a
    by_cases hmem : 0 ≤ a ∧ a < (num : Int)
    · have hk : a.toNat < num := by omega
      have ha : ((a.toNat : Nat) : Int) = a := by omega
      have h1 : List.count a b = 1 := by
        have := hc a.toNat hk
        rwa [ha] at this
      have h2 : List.count a ((List.range num).map (Nat.cast : Nat → Int)) = 1 :=
        List.count_eq_one_of_mem (nodup_rangeInts num)
          ((mem_rangeInts num a).mpr hmem)
      rw [h1, h2]
    · have h1 : a ∉ b := fun hab => by
        have := hr a hab
        simp only [inRange, Bool.and_eq_true, decide_eq_true_eq] at this
        exact hmem this
      have h2 : a ∉ (List.range num).map (Nat.cast : Nat → Int) := fun hm =>
        hmem ((mem_rangeInts num a).mp hm)
      rw [List.count_eq_zero.mpr h1, List.count_eq_zero.mpr h2]
  · intro hcnt
    have hperm : b.Perm ((List.range num).map (Nat.cast : Nat → Int)) :=
      List.perm_iff_count.mpr hcnt
    refine ⟨⟨?_, ?_⟩, ?_⟩
    · have := hperm.length_eq
      simp only [List.length_map, List.length_range] at this
      exact this
    · intro c hcb
      have := (mem_rangeInts num c).mp (hperm.mem_iff.mp hcb)
      simp only [inRange, Bool.and_eq_true, decide_eq_true_eq]
      exact this
    · intro k hk
      rw [hcnt]
      exact List.count_eq_one_of_mem (nodup_rangeInts num)
        ((mem_rangeInts num (k : Int)).mpr ⟨Int.natCast_nonneg k, by exact_mod_cast hk⟩)

/-- Number of position pairs `i < j` with `b[i] = p` and `b[j] = q`: how
often the fill loop increments entry `(p, q)` for ballot `b`. -/
def pairCount (p q : Nat) : List Nat → Nat
  | [] => 0
  | x :: rest => (if x = p then rest.count q else 0) + pairCount p q rest

lemma length_bump (m : List Nat) (k : Nat) : (bump m k).length = m.length :=
  List.length_set m k _

lemma length_fillRow (num bi : Nat) (rest : List Nat) :
    ∀ m : List Nat, (fillRow num bi rest m).length = m.length := by
  induction rest with
  | nil => intro m; rfl
  | cons bj rest ih =>
      intro m
      show (fillRow num bi rest (bump m (num * bi + bj))).length = _
      rw [ih, length_bump]

lemma length_fillMatrix (num : Nat) (b : List Nat) :
    ∀ m : List Nat, (fillMatrix num b m).length = m.length := by
  induction b with
  | nil => intro m; rfl
  | cons bi rest ih =>
      intro m
      show (fillMatrix num rest (fillRow num bi rest m)).length = _
      rw [ih, length_fillRow]

lemma getD_set_self {α : Type} (m : List α) (k : Nat) (v d : α)
    (hk : k < m.length) : (m.set k v).getD k d = v := by
  rw [List.getD_eq_getElem?_getD, List.getElem?_set_self (by simpa using hk)]
  rfl

lemma getD_set_ne {α : Type} (m : List α) (k k' : Nat) (v d : α)
    (h : k ≠ k') : (m.set k v).getD k' d = m.getD k' d := by
  rw [List.getD_eq_getElem?_getD, List.getElem?_set_ne h,
    List.getD_eq_getElem?_getD]

lemma getD_bump (m : List Nat) (k k' : Nat) (hk : k < m.length) :
    (bump m k).getD k' 0 = m.getD k' 0 + if k' = k then 1 else 0 := by
  by_cases h : k' = k
  · subst h
    rw [bump, getD_set_self m k' _ 0 hk, if_pos rfl]
  · rw [bump, getD_set_ne m k k' _ 0 (fun he => h he.symm), if_neg h]
    omega

/-- Row-major indices are injective on in-range pairs. -/
lemma index_inj {num p q bi bj : Nat} (hq : q < num) (hbj : bj < num)
    (h : num * bi + bj = num * p + q) : bi = p ∧ bj = q := by
  have h1 : (num * bi + bj) % num = bj := by
    rw [Nat.mul_add_mod]
    exact Nat.mod_eq_of_lt hbj
  have h2 : (num * p + q) % num = q := by
    rw [Nat.mul_add_mod]
    exact Nat.mod_eq_of_lt hq
  have hbjq : bj = q := by rw [← h1, h, h2]
  subst hbjq
  have hmul : num * bi = num * p := by omega
  have hnum : 0 < num := by omega
  exact ⟨Nat.eq_of_mul_eq_mul_left hnum hmul, rfl⟩

lemma tallyAt_fillRow (num bi : Nat) (hbi : bi < num) (p q : Nat)
    (hp : p < num) (hq : q < num) :
    ∀ (rest : List Nat) (m : List Nat), (∀ x ∈ rest, x < num) →
      m.length = num * num →
      tallyAt num (fillRow num bi rest m) p q =
        tallyAt num m p q + if bi = p then rest.count q else 0 := by
  intro rest
  induction rest with
  | nil => intro m _ _; simp [fillRow, tallyAt]
  | cons bj rest ih =>
      intro m hr hm
      have hbj : bj < num := hr bj (List.mem_cons_self bj rest)
      have hstep : fillRow num bi (bj :: rest) m =
          fillRow num bi rest (bump m (num * bi + bj)) := rfl
      have hlen : (bump m (num * bi + bj)).length = num * num := by
        rw [length_bump]; exact hm
      rw [hstep, ih (bump m (num * bi + bj))
        (fun x hx => hr x (List.mem_cons_of_mem bj hx)) hlen]
      unfold tallyAt
      rw [getD_bump m _ _ (by rw [hm]; exact index_lt_sq hbi hbj)]
      have hiff : (num * p + q = num * bi + bj) ↔ (bi = p ∧ bj = q) := by
        constructor
        · intro he
          obtain ⟨h1, h2⟩ := index_inj hbj hq he
          exact ⟨h1.symm, h2.symm⟩
        · rintro ⟨rfl, rfl⟩; rfl
      by_cases hbp : bi = p
      · subst hbp
        by_cases hbq : bj = q
        · subst hbq
          rw [if_pos (hiff.mpr ⟨rfl, rfl⟩), if_pos rfl, if_pos rfl,
            List.count_cons_self]
          omega
        · rw [if_neg (fun he => hbq (hiff.mp he).2), if_pos rfl, if_pos rfl,
            List.count_cons_of_ne (Ne.symm hbq)]
          omega
      · rw [if_neg (fun he => hbp (hiff.mp he).1), if_neg hbp, if_neg hbp]

lemma tallyAt_fillMatrix (num : Nat) (p q : Nat) (hp : p < num) (hq : q < num) :
    ∀ (b : List Nat) (m : List Nat), (∀ x ∈ b, x < num) →
      m.length = num * num →
      tallyAt num (fillMatrix num b m) p q =
        tallyAt num m p q + pairCount p q b := by
  intro b
  induction b with
  | nil => intro m _ _; simp [fillMatrix, pairCount]
  | cons bi rest ih =>
      intro m hb hm
      have hbi : bi < num := hb bi (List.mem_cons_self bi rest)
      have hrest : ∀ x ∈ rest, x < num :=
        fun x hx => hb x (List.mem_cons_of_mem bi hx)
      have hstep : fillMatrix num (bi :: rest) m =
          fillMatrix num rest (fillRow num bi rest m) := rfl
      have hlen : (fillRow num bi rest m).length = num * num := by
        rw [length_fillRow]; exact hm
      rw [hstep, ih (fillRow num bi rest m) hrest hlen,
        tallyAt_fillRow num bi hbi p q hp hq rest m hrest hm]
      show _ = tallyAt num m p q + ((if bi = p then rest.count q else 0) +
        pairCount p q rest)
      omega

lemma pairCount_of_not_mem_left {p : Nat} (q : Nat) {b : List Nat}
    (h : p ∉ b) : pairCount p q b = 0 := by
  induction b with
  | nil => rfl
  | cons x rest ih =>
      have hx : x ≠ p := fun he => h (he ▸ List.mem_cons_self x rest)
      have hr : p ∉ rest := fun hm => h (List.mem_cons_of_mem x hm)
      show (if x = p then rest.count q else 0) + pairCount p q rest = 0
      rw [if_neg hx, ih hr]

lemma pairCount_of_not_mem_right (p : Nat) {q : Nat} {b : List Nat}
    (h : q ∉ b) : pairCount p q b = 0 := by
  induction b with
  | nil => rfl
  | cons x rest ih =>
      have hr : q ∉ rest := fun hm => h (List.mem_cons_of_mem x hm)
      show (if x = p then rest.count q else 0) + pairCount p q rest = 0
      rw [List.count_eq_zero.mpr hr, ih hr]
      simp

/-- In a duplicate-free ballot, the pair of candidates at positions
`i < j` is counted exactly once in the `(b[i], b[j])` direction and never
in the reverse direction. -/
lemma pairCount_get :
    ∀ (b : List Nat), b.Nodup →
      ∀ i j (hij : i < j) (hj : j < b.length),
        pairCount (b.get ⟨i, lt_trans hij hj⟩) (b.get ⟨j, hj⟩) b = 1 ∧
        pairCount (b.get ⟨j, hj⟩) (b.get ⟨i, lt_trans hij hj⟩) b = 0 := by
  intro b
  induction b with
  | nil => intro _ i j hij hj; simp at hj
  | cons x rest ih =>
      intro hnd i j hij hj
      rw [List.nodup_cons] at hnd
      obtain ⟨hx, hrest⟩ := hnd
      match i, j with
      | 0, j' + 1 =>
          have hj' : j' < rest.length := by simpa using hj
          have hgi : (x :: rest).get ⟨0, lt_trans hij hj⟩ = x := rfl
          have hgj : (x :: rest).get ⟨j' + 1, hj⟩ = rest.get ⟨j', hj'⟩ := rfl
          rw [hgi, hgj]
          have hqmem : rest.get ⟨j', hj'⟩ ∈ rest := List.get_mem rest j' hj'
          have hxq : x ≠ rest.get ⟨j', hj'⟩ := fun he => hx (he ▸ hqmem)
          constructor
          · show (if x = x then rest.count _ else 0) + pairCount x _ rest = 1
            rw [if_pos rfl, List.count_eq_one_of_mem hrest hqmem,
              pairCount_of_not_mem_left _ hx]
          · show (if x = _ then rest.count x else 0) + pairCount _ x rest = 0
            rw [if_neg hxq, pairCount_of_not_mem_right _ hx]
      | i' + 1, j' + 1 =>
          have hj' : j' < rest.length := by simpa using hj
          have hij' : i' < j' := by omega
          have hgi : (x :: rest).get ⟨i' + 1, lt_trans hij hj⟩ =
              rest.get ⟨i', lt_trans hij' hj'⟩ := rfl
          have hgj : (x :: rest).get ⟨j' + 1, hj⟩ = rest.get ⟨j', hj'⟩ := rfl
          rw [hgi, hgj]
          have hpmem : rest.get ⟨i', lt_trans hij' hj'⟩ ∈ rest :=
            List.get_mem rest i' (lt_trans hij' hj')
          have hqmem : rest.get ⟨j', hj'⟩ ∈ rest := List.get_mem rest j' hj'
          have hxp : x ≠ rest.get ⟨i', lt_trans hij' hj'⟩ :=
            fun he => hx (he ▸ hpmem)
          have hxq : x ≠ rest.get ⟨j', hj'⟩ := fun he => hx (he ▸ hqmem)
          obtain ⟨h1, h2⟩ := ih hrest i' j' hij' hj'
          constructor
          · show (if x = _ then rest.count _ else 0) + pairCount _ _ rest = 1
            rw [if_neg hxp, h1]
          · show (if x = _ then rest.count _ else 0) + pairCount _ _ rest = 0
            rw [if_neg hxq, h2]

/-- In a duplicate-free ballot containing both candidates, exactly one
direction of the pair is counted. -/
lemma pairCount_add_rev (b : List Nat) (hnd : b.Nodup) {p q : Nat}
    (hp : p ∈ b) (hq : q ∈ b) (hpq : p ≠ q) :
    pairCount p q b + pairCount q p b = 1 := by
  obtain ⟨⟨i, hi⟩, hgi⟩ := List.mem_iff_get.mp hp
  obtain ⟨⟨j, hj⟩, hgj⟩ := List.mem_iff_get.mp hq
  have hij : i ≠ j := by
    intro he
    apply hpq
    rw [← hgi, ← hgj]
    subst he
    rfl
  rcases Nat.lt_or_ge i j with h | h
  · obtain ⟨h1, h2⟩ := pairCount_get b hnd i j h hj
    rw [show b.get ⟨i, lt_trans h hj⟩ = p from by rw [← hgi], hgj] at h1 h2
    omega
  · have h' : j < i := by omega
    obtain ⟨h1, h2⟩ := pairCount_get b hnd j i h' hi
    rw [show b.get ⟨j, lt_trans h' hi⟩ = q from by rw [← hgj], hgi] at h1 h2
    omega

/-- If no position pair realizes `(p, q)`, the fill loop never touches
that entry. -/
lemma pairCount_of_no_position :
    ∀ (b : List Nat) (p q : Nat),
      (∀ i j (hij : i < j) (hj : j < b.length),
        ¬(b.get ⟨i, lt_trans hij hj⟩ = p ∧ b.get ⟨j, hj⟩ = q)) →
      pairCount p q b = 0 := by
  intro b
  induction b with
  | nil => intro p q _; rfl
  | cons x rest ih =>
      intro p q h
      show (if x = p then rest.count q else 0) + pairCount p q rest = 0
      have h1 : (if x = p then rest.count q else 0) = 0 := by
        by_cases hxp : x = p
        · rw [if_pos hxp]
          by_contra hc
          have hqr : q ∈ rest := by
            rw [← List.count_pos_iff]
            omega
          obtain ⟨⟨j', hj'⟩, hgj⟩ := List.mem_iff_get.mp hqr
          exact h 0 (j' + 1) (by omega) (by simpa using hj')
            ⟨hxp, by simpa using hgj⟩
        · rw [if_neg hxp]
      rw [h1, ih p q ?_]
      intro i j hij hj hpq
      exact h (i + 1) (j + 1) (by omega) (by simpa using hj)
        ⟨hpq.1, hpq.2⟩

lemma tallyAt_nil (num p q : Nat) : tallyAt num [] p q = 0 := rfl

lemma tallyAt_replicate_zero (num k p q : Nat) :
    tallyAt num (List.replicate k 0) p q = 0 := by
  unfold tallyAt
  rw [List.getD_eq_getElem?_getD, List.getElem?_replicate]
  split <;> rfl

/-- The acceptance flag of `Vote` is exactly the validation verdict. -/
lemma vote_fst (e : Election) (s : Store) (b : List Int) :
    (e.Vote b s).1 = validBallot e.num b := by
  by_cases hv : validBallot e.num b = true
  · simp only [Election.Vote, hv, if_true]
    split <;> rfl
  · rw [Bool.not_eq_true] at hv
    simp [Election.Vote, hv]

lemma vote_invalid (e : Election) (s : Store) (b : List Int)
    (hv : validBallot e.num b = false) : e.Vote b s = (false, e, s) := by
  simp [Election.Vote, hv]

lemma ballot_entries_lt {num : Nat} {b : List Int}
    (hv : validBallot num b = true) : ∀ x ∈ b.map Int.toNat, x < num := by
  intro x hx
  rw [List.mem_map] at hx
  obtain ⟨c, hc, rfl⟩ := hx
  unfold validBallot at hv
  simp only [Bool.and_eq_true, List.all_eq_true] at hv
  have := hv.1.2 c hc
  simp only [inRange, Bool.and_eq_true, decide_eq_true_eq] at this
  omega

/-- The natural-number view of a validated ballot is a permutation of
`0 .. num-1`. -/
lemma natBallot_perm_range {num : Nat} {b : List Int}
    (hv : validBallot num b = true) :
    (b.map Int.toNat).Perm (List.range num) := by
  have hperm : IsPermBallot num b := (validBallot_iff_perm num b).mp hv
  have hmap := hperm.map Int.toNat
  rwa [List.map_map, show Int.toNat ∘ (Nat.cast : Nat → Int) = id from
    funext fun k => Int.toNat_natCast k, List.map_id] at hmap

lemma natBallot_nodup {num : Nat} {b : List Int}
    (hv : validBallot num b = true) : (b.map Int.toNat).Nodup :=
  ((natBallot_perm_range hv).nodup_iff).mpr (List.nodup_range num)

lemma natBallot_mem {num : Nat} {b : List Int}
    (hv : validBallot num b = true) {k : Nat} (hk : k < num) :
    k ∈ b.map Int.toNat :=
  (natBallot_perm_range hv).mem_iff.mpr (List.mem_range.mpr hk)

/-- `Vote` on a valid ballot with an unallocated matrix: allocate, fill
the zero matrix, write it at the fresh reference. -/
lemma vote_valid_uninit (e : Election) (s : Store) (b : List Int)
    (hv : validBallot e.num b = true) (hm : e.m = none) :
    e.Vote b s = (true, ⟨e.n, some s.length⟩,
      s ++ [fillMatrix e.num (b.map Int.toNat)
        (List.replicate (e.num * e.num) 0)]) := by
  have hinit : e.initialized = false := by simp [Election.initialized, hm]
  have hmat : (⟨e.n, some s.length⟩ : Election).mat
      (s ++ [List.replicate (e.num * e.num) 0]) =
      List.replicate (e.num * e.num) 0 := by
    simp only [Election.mat]
    exact getD_append_cons s _ []
  simp only [Election.Vote, hv, if_true, hinit, Bool.false_eq_true, if_false,
    Election.init, hmat]
  rw [List.set_append_right _ _ (le_refl s.length), Nat.sub_self]
  rfl

/-- `Vote` on a valid ballot with an allocated matrix: fill in place. -/
lemma vote_valid_init (e : Election) (s : Store) (b : List Int) (r : Nat)
    (hv : validBallot e.num b = true) (hm : e.m = some r) :
    e.Vote b s = (true, e,
      s.set r (fillMatrix e.num (b.map Int.toNat) (s.getD r []))) := by
  have hinit : e.initialized = true := by simp [Election.initialized, hm]
  simp only [Election.Vote, hv, if_true, hinit, Election.mat, hm]

/-- Accepted-ballot effect, both allocation cases at once: the vote is
counted, the election keeps its candidate count, the matrix is allocated
and well formed afterwards, and every tally entry grows by exactly the
number of realizing position pairs of the ballot. -/
lemma vote_valid_mat (e : Election) (s : Store) (b : List Int)
    (hwf : WF e s) (hv : validBallot e.num b = true) :
    (e.Vote b s).1 = true ∧
    (e.Vote b s).2.1.n = e.n ∧
    WF (e.Vote b s).2.1 (e.Vote b s).2.2 ∧
    (∃ r, (e.Vote b s).2.1.m = some r) ∧
    ((e.Vote b s).2.1.mat (e.Vote b s).2.2).length = e.num * e.num ∧
    (∀ p q, p < e.num → q < e.num →
      tallyAt e.num ((e.Vote b s).2.1.mat (e.Vote b s).2.2) p q =
        tallyAt e.num (e.mat s) p q + pairCount p q (b.map Int.toNat)) := by
  have hblt := ballot_entries_lt hv
  cases hm : e.m with
  | none =>
      rw [vote_valid_uninit e s b hv hm]
      have hmat : (⟨e.n, some s.length⟩ : Election).mat
          (s ++ [fillMatrix e.num (b.map Int.toNat)
            (List.replicate (e.num * e.num) 0)]) =
          fillMatrix e.num (b.map Int.toNat)
            (List.replicate (e.num * e.num) 0) := by
        simp only [Election.mat]
        exact getD_append_cons s _ []
      have hnum : (⟨e.n, some s.length⟩ : Election).num = e.num := rfl
      have hlen : (fillMatrix e.num (b.map Int.toNat)
          (List.replicate (e.num * e.num) 0)).length = e.num * e.num := by
        rw [length_fillMatrix, List.length_replicate]
      refine ⟨rfl, rfl, ?_, ⟨s.length, rfl⟩, by rw [hmat]; exact hlen, ?_⟩
      · intro r hr
        simp only at hr
        obtain rfl : s.length = r := by simpa using hr
        constructor
        · simp
        · rw [show (s ++ [fillMatrix e.num (b.map Int.toNat)
            (List.replicate (e.num * e.num) 0)]).getD s.length [] =
              fillMatrix e.num (b.map Int.toNat)
                (List.replicate (e.num * e.num) 0) from getD_append_cons s _ [],
            hlen, hnum]
      · intro p q hp hq
        rw [hmat,
          tallyAt_fillMatrix e.num p q hp hq (b.map Int.toNat) _ hblt
            (by rw [List.length_replicate]),
          tallyAt_replicate_zero]
        simp only [Election.mat, hm]
        rw [tallyAt_nil]
  | some r =>
      rw [vote_valid_init e s b r hv hm]
      obtain ⟨hrlen, hmlen⟩ := hwf r hm
      have hmat : e.mat (s.set r (fillMatrix e.num (b.map Int.toNat)
          (s.getD r []))) =
          fillMatrix e.num (b.map Int.toNat) (s.getD r []) := by
        simp only [Election.mat, hm]
        exact getD_set_self s r _ [] hrlen
      refine ⟨rfl, rfl, ?_, ⟨r, hm⟩, ?_, ?_⟩
      · intro r' hr'
        simp only at hr'
        rw [hm] at hr'
        obtain rfl : r = r' := by simpa using hr'
        refine ⟨by simpa using hrlen, ?_⟩
        rw [getD_set_self s r _ [] hrlen, length_fillMatrix]
        exact hmlen
      · rw [hmat, length_fillMatrix]
        exact hmlen
      · intro p q hp hq
        rw [hmat,
          tallyAt_fillMatrix e.num p q hp hq (b.map Int.toNat) _ hblt hmlen]
        simp only [Election.mat, hm]

/-- `Vote` preserves heap well-formedness in every case. -/
lemma vote_wf (e : Election) (s : Store) (b : List Int) (hwf : WF e s) :
    WF (e.Vote b s).2.1 (e.Vote b s).2.2 := by
  by_cases hv : validBallot e.num b = true
  · exact (vote_valid_mat e s b hwf hv).2.2.1
  · rw [Bool.not_eq_true] at hv
    rw [vote_invalid e s b hv]
    exact hwf

lemma runVotes_cons (e : Election) (s : Store) (b : List Int)
    (bs : List (List Int)) :
    runVotes e s (b :: bs) =
      runVotes (e.Vote b s).2.1 (e.Vote b s).2.2 bs := rfl

/-- The state invariant along a trace of `Vote` calls on an `n`-candidate
election: the candidate count is stable and either no ballot has been
accepted yet and the matrix is nil, or the matrix is allocated and every
pair of distinct candidates has its two directed tallies summing to the
number of accepted ballots `k`. -/
def Inv (n k : Nat) (e : Election) (s : Store) : Prop :=
  e.n = n - 2 ∧ WF e s ∧
  ((e.m = none ∧ k = 0) ∨
   ((e.mat s).length = n * n ∧ ∀ i j, i < n → j < n → i ≠ j →
      tallyAt n (e.mat s) i j + tallyAt n (e.mat s) j i = k))

lemma inv_start (n : Nat) : Inv n 0 (fresh n) [] :=
  ⟨rfl, fun r hr => by simp [fresh] at hr, Or.inl ⟨rfl, rfl⟩⟩

lemma inv_step {n k : Nat} (hn : 2 ≤ n) {e : Election} {s : Store}
    (b : List Int) (h : Inv n k e s) :
    Inv n (k + if validBallot n b then 1 else 0)
      (e.Vote b s).2.1 (e.Vote b s).2.2 := by
  obtain ⟨hen, hwf, hrest⟩ := h
  have hnum : e.num = n := by unfold Election.num; omega
  by_cases hv : validBallot n b = true
  · have hv' : validBallot e.num b = true := by rw [hnum]; exact hv
    obtain ⟨hfst, hn', hwf', ⟨r, hr⟩, hlen, htal⟩ := vote_valid_mat e s b hwf hv'
    rw [hnum] at hlen htal
    refine ⟨by rw [hn']; exact hen, hwf', Or.inr ⟨hlen, ?_⟩⟩
    intro i j hi hj hij
    have hnd := natBallot_nodup hv'
    have hmi : i ∈ b.map Int.toNat := natBallot_mem hv' (by omega : i < e.num)
    have hmj : j ∈ b.map Int.toNat := natBallot_mem hv' (by omega : j < e.num)
    have hpc := pairCount_add_rev (b.map Int.toNat) hnd hmi hmj hij
    rw [htal i j hi hj, htal j i hj hi, if_pos hv]
    cases hrest with
    | inl hz =>
        obtain ⟨hm0, hk0⟩ := hz
        have : e.mat s = [] := by simp [Election.mat, hm0]
        rw [this, tallyAt_nil, tallyAt_nil, hk0]
        omega
    | inr hi2 =>
        have := hi2.2 i j hi hj hij
        omega
  · have hvf : validBallot e.num b = false := by
      rw [hnum]
      exact Bool.not_eq_true _ ▸ (by simpa using hv)
    rw [vote_invalid e s b hvf, if_neg hv]
    exact ⟨hen, hwf, hrest⟩

lemma acceptedCount_cons (n : Nat) (b : List Int) (bs : List (List Int)) :
    acceptedCount n (b :: bs) =
      (if validBallot n b then 1 else 0) + acceptedCount n bs := by
  unfold acceptedCount
  cases hb : validBallot n b <;> simp [List.filter_cons, hb]
  omega

lemma runVotes_inv {n : Nat} (hn : 2 ≤ n) :
    ∀ (bs : List (List Int)) {k : Nat} {e : Election} {s : Store},
      Inv n k e s →
      Inv n (k + acceptedCount n bs) (runVotes e s bs).1 (runVotes e s bs).2 := by
  intro bs
  induction bs with
  | nil =>
      intro k e s h
      simpa [runVotes, acceptedCount] using h
  | cons b bs ih =>
      intro k e s h
      rw [runVotes_cons, acceptedCount_cons, ← Nat.add_assoc]
      exact ih (inv_step hn b h)

/-- Both directed tallies of any distinct pair sum to the number of
accepted ballots, in any state reached from `New n` by `Vote` calls. -/
lemma run_tally_sum (n : Nat) (hn : 2 ≤ n) (bs : List (List Int))
    (i j : Nat) (hi : i < n) (hj : j < n) (hij : i ≠ j) :
    tallyAt n ((runVotes (fresh n) [] bs).1.mat (runVotes (fresh n) [] bs).2) i j +
    tallyAt n ((runVotes (fresh n) [] bs).1.mat (runVotes (fresh n) [] bs).2) j i =
    acceptedCount n bs := by
  have h := runVotes_inv hn bs (inv_start n)
  rw [Nat.zero_add] at h
  obtain ⟨-, -, hrest⟩ := h
  cases hrest with
  | inl hz =>
      obtain ⟨hm, hk⟩ := hz
      rw [hk]
      simp [Election.mat, hm, tallyAt_nil]
  | inr h2 => exact h2.2 i j hi hj hij

lemma vote_n (e : Election) (s : Store) (b : List Int) :
    (e.Vote b s).2.1.n = e.n := by
  by_cases hv : validBallot e.num b = true
  · cases hm : e.m with
    | none => rw [vote_valid_uninit e s b hv hm]
    | some r => rw [vote_valid_init e s b r hv hm]
  · rw [Bool.not_eq_true] at hv
    rw [vote_invalid e s b hv]

lemma runVotes_n :
    ∀ (bs : List (List Int)) (e : Election) (s : Store),
      (runVotes e s bs).1.n = e.n := by
  intro bs
  induction bs with
  | nil => intro e s; rfl
  | cons b bs ih =>
      intro e s
      rw [runVotes_cons, ih, vote_n]

lemma wf_none (e : Election) (s : Store) (h : e.m = none) : WF e s :=
  fun r hr => absurd (h ▸ hr) (by simp)

/-- `NumVoters` reads the two directed tallies of the pair `(0, 1)`. -/
lemma numVoters_eq_tally (e : Election) (s : Store) :
    e.NumVoters s =
      tallyAt e.num (e.mat s) 0 1 + tallyAt e.num (e.mat s) 1 0 := rfl

/-- The snapshot's voter count agrees with the live election's at
snapshot time. -/
lemma result_numvoters (e : Election) (s : Store) :
    (e.Result s).1.NumVoters (e.Result s).2.2 = e.NumVoters s := by
  cases hm : e.m with
  | none =>
      rw [result_uninit e s hm]
      show Election.NumVoters _ _ = _
      rw [numVoters_eq_tally, numVoters_eq_tally]
      have hmat : Election.mat ⟨e.n, some (s.length + 1)⟩
          ((s ++ [List.replicate (e.num * e.num) 0]) ++
            [List.replicate (e.num * e.num) 0]) =
          List.replicate (e.num * e.num) 0 := by
        simp only [Election.mat]
        have h1 : s.length + 1 =
            (s ++ [List.replicate (e.num * e.num) 0]).length := by simp
        rw [h1]
        exact getD_append_cons _ _ []
      have hnil : e.mat s = [] := by simp [Election.mat, hm]
      rw [hmat, hnil, tallyAt_nil, tallyAt_nil,
        tallyAt_replicate_zero, tallyAt_replicate_zero]
  | some r =>
      rw [result_init e s r hm]
      show Election.NumVoters _ _ = _
      rw [numVoters_eq_tally, numVoters_eq_tally]
      have hmat : Election.mat ⟨e.n, some s.length⟩ (s ++ [s.getD r []]) =
          s.getD r [] := by
        simp only [Election.mat]
        exact getD_append_cons s _ []
      have hms : e.mat s = s.getD r [] := by simp [Election.mat, hm]
      rw [hmat, hms]
      simp only [Election.num]

lemma get?_eq_some_getD (m : List Nat) (k : Nat) (hk : k < m.length) :
    m.get? k = some (m.getD k 0) := by
  rw [List.getD_eq_getElem?_getD, List.get?_eq_getElem?]
  cases h : m[k]? with
  | none =>
      rw [List.getElem?_eq_none_iff] at h
      omega
  | some v => rfl

/-- The sweep never faults on a full-size matrix and yields a candidate
index. -/
lemma sweepF_total {num : Nat} {m : List Nat} (hm : m.length = num * num) :
    ∀ (fuel i w : Nat), i + fuel = num → w < num →
      ∃ w', sweepF num m w i fuel = some w' ∧ w' < num := by
  intro fuel
  induction fuel with
  | zero => intro i w _ hw; exact ⟨w, rfl, hw⟩
  | succ f ih =>
      intro i w hif hw
      have hi : i < num := by omega
      have h1 := get?_eq_some_getD m (num * w + i)
        (by rw [hm]; exact index_lt_sq hw hi)
      have h2 := get?_eq_some_getD m (num * i + w)
        (by rw [hm]; exact index_lt_sq hi hw)
      simp only [sweepF, h1, h2]
      by_cases hab : m.getD (num * w + i) 0 < m.getD (num * i + w) 0
      · rw [if_pos hab]
        exact ih (i + 1) i (by omega) hi
      · rw [if_neg hab]
        exact ih (i + 1) w (by omega) hw

/-- If a Condorcet winner `c` exists, the sweep ends on `c`: once the
loop counter has passed `c`, the current candidate is `c` and `c` defeats
every later challenger. -/
lemma sweepF_finds {num : Nat} {m : List Nat} (hm : m.length = num * num)
    {c : Nat} (hc : BeatsAll num m c) :
    ∀ (fuel i w : Nat), i + fuel = num → w < num → (w = c ∨ i ≤ c) →
      sweepF num m w i fuel = some c := by
  obtain ⟨hcn, hbeats⟩ := hc
  intro fuel
  induction fuel with
  | zero =>
      intro i w hif hw hwc
      cases hwc with
      | inl h => rw [h]; rfl
      | inr h => exact absurd hcn (by omega)
  | succ f ih =>
      intro i w hif hw hwc
      have hi : i < num := by omega
      have h1 := get?_eq_some_getD m (num * w + i)
        (by rw [hm]; exact index_lt_sq hw hi)
      have h2 := get?_eq_some_getD m (num * i + w)
        (by rw [hm]; exact index_lt_sq hi hw)
      simp only [sweepF, h1, h2]
      by_cases hwc' : w = c
      · subst hwc'
        have hnotlt : ¬ m.getD (num * w + i) 0 < m.getD (num * i + w) 0 := by
          by_cases hiw : i = w
          · subst hiw
            omega
          · have := hbeats i hi hiw
            unfold tallyAt at this
            omega
        rw [if_neg hnotlt]
        exact ih (i + 1) w (by omega) hw (Or.inl rfl)
      · have hic : i ≤ c := hwc.resolve_left hwc'
        by_cases hieq : i = c
        · have hlt : m.getD (num * w + i) 0 < m.getD (num * i + w) 0 := by
            have := hbeats w hw (by omega : w ≠ c)
            unfold tallyAt at this
            rw [hieq]
            omega
          rw [if_pos hlt]
          exact ih (i + 1) i (by omega) hi (Or.inl hieq)
        · by_cases hab : m.getD (num * w + i) 0 < m.getD (num * i + w) 0
          · rw [if_pos hab]
            exact ih (i + 1) i (by omega) hi (Or.inr (by omega))
          · rw [if_neg hab]
            exact ih (i + 1) w (by omega) hw (Or.inr (by omega))

/-- The confirmation pass never faults on a full-size matrix. -/
lemma confirmF_total {num : Nat} {m : List Nat} (hm : m.length = num * num)
    {w : Nat} (hw : w < num) :
    ∀ (fuel i : Nat), i + fuel = num →
      ∃ ok, confirmF num m w i fuel = some ok := by
  intro fuel
  induction fuel with
  | zero => intro i _; exact ⟨true, rfl⟩
  | succ f ih =>
      intro i hif
      have hi : i < num := by omega
      by_cases hiw : i = w
      · simp only [confirmF, if_pos hiw]
        exact ih (i + 1) (by omega)
      · have h1 := get?_eq_some_getD m (num * w + i)
          (by rw [hm]; exact index_lt_sq hw hi)
        have h2 := get?_eq_some_getD m (num * i + w)
          (by rw [hm]; exact index_lt_sq hi hw)
        simp only [confirmF, if_neg hiw, h1, h2]
        by_cases hab : m.getD (num * w + i) 0 ≤ m.getD (num * i + w) 0
        · rw [if_pos hab]
          exact ⟨false, rfl⟩
        · rw [if_neg hab]
          exact ih (i + 1) (by omega)

/-- The confirmation pass from counter `i` succeeds with `true` exactly
when `w` strictly beats every candidate from `i` on. -/
lemma confirmF_true_iff {num : Nat} {m : List Nat} (hm : m.length = num * num)
    {w : Nat} (hw : w < num) :
    ∀ (fuel i : Nat), i + fuel = num →
      (confirmF num m w i fuel = some true ↔
        ∀ j, i ≤ j → j < num → j ≠ w →
          tallyAt num m j w < tallyAt num m w j) := by
  intro fuel
  induction fuel with
  | zero =>
      intro i hif
      constructor
      · intro _ j hj1 hj2 _
        exact absurd hj2 (by omega)
      · intro _
        rfl
  | succ f ih =>
      intro i hif
      have hi : i < num := by omega
      by_cases hiw : i = w
      · simp only [confirmF, if_pos hiw]
        rw [ih (i + 1) (by omega)]
        constructor
        · intro h j hj1 hj2 hjw
          rcases Nat.eq_or_lt_of_le hj1 with he | hl
          · exact absurd (by omega : j = w) hjw
          · exact h j (by omega) hj2 hjw
        · intro h j hj1 hj2 hjw
          exact h j (by omega) hj2 hjw
      · have h1 := get?_eq_some_getD m (num * w + i)
          (by rw [hm]; exact index_lt_sq hw hi)
        have h2 := get?_eq_some_getD m (num * i + w)
          (by rw [hm]; exact index_lt_sq hi hw)
        simp only [confirmF, if_neg hiw, h1, h2]
        by_cases hab : m.getD (num * w + i) 0 ≤ m.getD (num * i + w) 0
        · rw [if_pos hab]
          constructor
          · intro hx
            exact absurd hx (by simp)
          · intro h
            exfalso
            have := h i (le_refl i) hi hiw
            unfold tallyAt at this
            omega
        · rw [if_neg hab]
          rw [ih (i + 1) (by omega)]
          constructor
          · intro h j hj1 hj2 hjw
            rcases Nat.eq_or_lt_of_le hj1 with he | hl
            · have : j = i := by omega
              subst this
              unfold tallyAt
              omega
            · exact h j (by omega) hj2 hjw
          · intro h j hj1 hj2 hjw
            exact h j (by omega) hj2 hjw

/-- The algorithm returns `(w, true)` exactly when `w` strictly beats
every other candidate. -/
lemma winnerFrom_some_true_iff {num : Nat} {m : List Nat}
    (hm : m.length = num * num) (hnum : 2 ≤ num) (w : Nat) :
    winnerFrom num m = some (w, true) ↔ BeatsAll num m w := by
  constructor
  · intro h
    unfold winnerFrom at h
    obtain ⟨w0, hs, hw0⟩ : ∃ w0, sweep num m 0 1 = some w0 ∧ w0 < num := by
      have := sweepF_total hm (num - 1) 1 0 (by omega) (by omega)
      simpa [sweep] using this
    rw [hs] at h
    dsimp only at h
    obtain ⟨ok, hok⟩ := confirmF_total hm hw0 num 0 (by omega)
    rw [show confirm num m w0 = confirmF num m w0 0 num from rfl, hok] at h
    dsimp only at h
    simp only [Option.some.injEq, Prod.mk.injEq] at h
    obtain ⟨rfl, rfl⟩ := h
    refine ⟨hw0, ?_⟩
    have hall := (confirmF_true_iff hm hw0 num 0 (by omega)).mp hok
    intro i hi hiw
    exact hall i (Nat.zero_le i) hi hiw
  · intro hb
    unfold winnerFrom
    rw [show sweep num m 0 1 = some w from
      sweepF_finds hm hb (num - 1) 1 0 (by omega) (by omega) (by omega)]
    dsimp only
    rw [show confirm num m w = some true from
      (confirmF_true_iff hm hb.1 num 0 (by omega)).mpr
        (fun j _ hj hjw => hb.2 j hj hjw)]

/-- When no candidate beats all others the algorithm returns `found =
false` (with whatever candidate the sweep ended on). -/
lemma winnerFrom_no_winner {num : Nat} {m : List Nat}
    (hm : m.length = num * num) (hnum : 2 ≤ num)
    (hno : ∀ w, ¬ BeatsAll num m w) :
    ∃ w, w < num ∧ winnerFrom num m = some (w, false) := by
  obtain ⟨w0, hs, hw0⟩ : ∃ w0, sweep num m 0 1 = some w0 ∧ w0 < num := by
    have := sweepF_total hm (num - 1) 1 0 (by omega) (by omega)
    simpa [sweep] using this
  obtain ⟨ok, hok⟩ := confirmF_total hm hw0 num 0 (by omega)
  refine ⟨w0, hw0, ?_⟩
  unfold winnerFrom
  rw [hs]
  dsimp only
  rw [show confirm num m w0 = confirmF num m w0 0 num from rfl, hok]
  dsimp only
  cases ok with
  | false => rfl
  | true =>
      exfalso
      apply hno w0
      refine ⟨hw0, ?_⟩
      have hall := (confirmF_true_iff hm hw0 num 0 (by omega)).mp hok
      intro i hi hiw
      exact hall i (Nat.zero_le i) hi hiw

/-- A `Vote` call on an election holding matrix reference `r` leaves the
election value unchanged and never changes the heap contents at any other
reference. -/
lemma vote_frame (e : Election) (s : Store) (b : List Int) (r : Nat)
    (hm : e.m = some r) (ρ : Nat) (hρ : ρ ≠ r) :
    (e.Vote b s).2.1 = e ∧
    (e.Vote b s).2.2.getD ρ [] = s.getD ρ [] := by
  by_cases hv : validBallot e.num b = true
  · rw [vote_valid_init e s b r hv hm]
    exact ⟨rfl, getD_set_ne s r ρ _ [] (fun he => hρ he.symm)⟩
  · rw [Bool.not_eq_true] at hv
    rw [vote_invalid e s b hv]
    exact ⟨rfl, rfl⟩

/-- Frame property of a whole trace of `Vote` calls. -/
lemma runVotes_frame (r ρ : Nat) (hρ : ρ ≠ r) :
    ∀ (bs : List (List Int)) (e : Election) (s : Store), e.m = some r →
      (runVotes e s bs).1 = e ∧
      (runVotes e s bs).2.getD ρ [] = s.getD ρ [] := by
  intro bs
  induction bs with
  | nil => intro e s _; exact ⟨rfl, rfl⟩
  | cons b bs ih =>
      intro e s hm
      obtain ⟨he, hs⟩ := vote_frame e s b r hm ρ hρ
      rw [runVotes_cons]
      obtain ⟨ih1, ih2⟩ :=
        ih (e.Vote b s).2.1 (e.Vote b s).2.2 (by rw [he]; exact hm)
      exact ⟨by rw [ih1, he], by rw [ih2, hs]⟩

/-- A snapshot's `Winner` and `NumVoters` only read the heap cell its
matrix reference points at. -/
lemma snapshot_reads (re : Election) (ρ : Nat) (hρ : re.m = some ρ)
    (s s' : Store) (h : s'.getD ρ [] = s.getD ρ []) :
    Result.Winner ⟨re⟩ s' = Result.Winner ⟨re⟩ s ∧
    Result.NumVoters ⟨re⟩ s' = Result.NumVoters ⟨re⟩ s := by
  have hmat : re.mat s' = re.mat s := by
    unfold Election.mat
    rw [hρ]
    exact h
  constructor
  · show winnerFrom re.num (re.mat s') = winnerFrom re.num (re.mat s)
    rw [hmat]
  · show re.NumVoters s' = re.NumVoters s
    rw [numVoters_eq_tally, numVoters_eq_tally, hmat]

/-! ### Claim theorems -/

/-- C8: for every `n ≥ 2`, `New n` succeeds and returns an election over
candidates `0 .. n-1` (candidate count `n`, matrix not yet allocated);
for every `n < 2` it fails with the explicit error value and produces no
election. -/
theorem new_constructs_iff_at_least_two (n : Int) :
    (2 ≤ n → ∃ e, New n = Except.ok e ∧ (e.num : Int) = n ∧ e.m = none) ∧
    (n < 2 → New n = Except.error "expecting at least 2 candidates") := by
  constructor
  · intro h
    refine ⟨⟨(n - 2).toNat, none⟩, ?_, ?_, rfl⟩
    · simp [New, not_lt.mpr h]
    · have ht : ((n - 2).toNat : Int) = n - 2 := Int.toNat_of_nonneg (by omega)
      simp only [Election.num]
      push_cast
      omega
  · intro h
    simp [New, h]

/-- Witness for C8 at `n = 5` and `n = 1`. -/
theorem new_constructs_iff_at_least_two_witness :
    (∃ e, New 5 = Except.ok e ∧ (e.num : Int) = 5 ∧ e.m = none) ∧
    New 1 = Except.error "expecting at least 2 candidates" :=
  ⟨(new_constructs_iff_at_least_two 5).1 (by decide),
   (new_constructs_iff_at_least_two 1).2 (by decide)⟩

/-- C9: the zero-initialized `Election` is exactly the value `New 2`
constructs — candidate count 2, no matrix — so `Vote`, `Result`, `Winner`
and `NumVoters` behave on it exactly as on a freshly constructed
2-candidate election. -/
theorem zero_election_behaves_as_new_two :
    New 2 = Except.ok zeroElection ∧ zeroElection.num = 2 ∧
    zeroElection.m = none ∧
    (∀ b s, zeroElection.Vote b s = (fresh 2).Vote b s) ∧
    (∀ s, zeroElection.Result s = (fresh 2).Result s) ∧
    (∀ s, zeroElection.Winner s = (fresh 2).Winner s) ∧
    (∀ s, zeroElection.NumVoters s = (fresh 2).NumVoters s) :=
  ⟨rfl, rfl, rfl, fun _ _ => rfl, fun _ => rfl, fun _ => rfl, fun _ => rfl⟩

/-- C2 fails on the code: `Election.Winner` reads the sum matrix without
the `initialized` guard that `Vote` and `Result` perform, so on a freshly
constructed election (nil matrix, no ballot accepted) the very first read
`e.m[e.index(0, 1)]` indexes the nil slice and panics (`none`), instead
of returning `(_, false)`.  The `Result()` path, by contrast, allocates
first and returns no winner. -/
theorem winner_on_fresh_election_panics :
    New 3 = Except.ok (fresh 3) ∧ (fresh 3).m = none ∧
    (fresh 3).Winner [] = none ∧
    ((fresh 3).Result []).1.Winner ((fresh 3).Result []).2.2 =
      some (0, false) := by
  refine ⟨by simp [New]; rfl, rfl, rfl, ?_⟩
  show winnerFrom 3 (Election.mat _ _) = _
  have : Election.mat ((fresh 3).Result []).1.e ((fresh 3).Result []).2.2 =
      List.replicate (3 * 3) 0 := by rfl
  rw [this]
  exact winnerFrom_zeros 3 (by omega)

/-- C10: `Result()` on a live election whose matrix is unallocated
mutates the live election: it installs an all-zero `num*num` matrix (all
tally reads and the candidate count unchanged), and a direct `Winner()`
on the live election afterwards runs on that zero matrix (returning
`(0, false)` instead of panicking). -/
theorem result_initializes_live_election (e : Election) (s : Store)
    (h : e.m = none) :
    (e.Result s).2.1.n = e.n ∧
    (e.Result s).2.1.m = some s.length ∧
    (e.Result s).2.1.mat (e.Result s).2.2 = List.replicate (e.num * e.num) 0 ∧
    (∀ i j, tallyAt e.num ((e.Result s).2.1.mat (e.Result s).2.2) i j =
      tallyAt e.num (e.mat s) i j) ∧
    (e.Result s).2.1.Winner (e.Result s).2.2 =
      winnerFrom e.num (List.replicate (e.num * e.num) 0) ∧
    (e.Result s).2.1.Winner (e.Result s).2.2 = some (0, false) := by
  rw [result_uninit e s h]
  have hmat : (⟨e.n, some s.length⟩ : Election).mat
      ((s ++ [List.replicate (e.num * e.num) 0]) ++
        [List.replicate (e.num * e.num) 0]) =
      List.replicate (e.num * e.num) 0 := by
    simp only [Election.mat, List.append_assoc]
    exact getD_append_cons s _ _
  have hnum : (⟨e.n, some s.length⟩ : Election).num = e.num := rfl
  refine ⟨rfl, rfl, hmat, ?_, ?_, ?_⟩
  · intro i j
    rw [hmat]
    simp only [tallyAt, Election.mat, h, List.getD_eq_getElem?_getD,
      List.getElem?_replicate, List.getD_nil]
    split <;> rfl
  · rw [Election.Winner, hmat, hnum]
  · rw [Election.Winner, hmat, hnum]
    exact winnerFrom_zeros e.num (by simp [Election.num])

/-- Witness for C10 on the zero election and the empty heap. -/
theorem result_initializes_live_election_witness :
    zeroElection.m = none ∧
    (zeroElection.Result []).2.1.Winner (zeroElection.Result []).2.2 =
      some (0, false) :=
  ⟨rfl, (result_initializes_live_election zeroElection [] rfl).2.2.2.2.2⟩

/-- C1: on any election state whose sum matrix is allocated at full size
(every `Result` snapshot, and the live election once a ballot was
accepted or a snapshot taken), `Winner` returns `(w, true)` exactly when
`w` strictly beats every other candidate pairwise
(`tally[w][i] > tally[i][w]` for all `i ≠ w`); when no such candidate
exists — any tie or cycle — it returns `found = false`.  `Result.Winner`
runs the identical algorithm on the wrapped election. -/
theorem winner_iff_strict_pairwise_majority (e : Election) (s : Store)
    (hm : (e.mat s).length = e.num * e.num) :
    (∀ w, (e.Winner s = some (w, true) ↔ BeatsAll e.num (e.mat s) w)) ∧
    ((∀ w, ¬ BeatsAll e.num (e.mat s) w) →
      ∃ w, w < e.num ∧ e.Winner s = some (w, false)) ∧
    (∀ r : Result, r.e = e → r.Winner s = e.Winner s) := by
  have hnum : 2 ≤ e.num := Nat.le_add_left 2 e.n
  refine ⟨?_, ?_, ?_⟩
  · intro w
    exact winnerFrom_some_true_iff hm hnum w
  · intro hno
    exact winnerFrom_no_winner hm hnum hno
  · intro r hr
    rw [Result.Winner, Election.Winner, hr]

/-- Witness for C1: the tally matrix of Condorcet's three-candidate
example (60 ballots), whose winner is candidate 2. -/
theorem winner_iff_strict_pairwise_majority_witness :
    Election.Winner ⟨1, some 0⟩ [[0, 25, 23, 35, 0, 19, 37, 41, 0]] =
      some (2, true) :=
  ((winner_iff_strict_pairwise_majority ⟨1, some 0⟩
      [[0, 25, 23, 35, 0, 19, 37, 41, 0]] (by rfl)).1 2).mpr (by decide)

/-- C6: in every state reachable from `New n` by a sequence of `Vote`
calls, the two directed tallies of every unordered pair of distinct
candidates sum to the number of ballots accepted so far. -/
theorem tally_pair_sum_invariant (n : Nat) (hn : 2 ≤ n)
    (bs : List (List Int)) (i j : Nat) (hi : i < n) (hj : j < n)
    (hij : i ≠ j) :
    tallyAt n ((runVotes (fresh n) [] bs).1.mat (runVotes (fresh n) [] bs).2) i j +
    tallyAt n ((runVotes (fresh n) [] bs).1.mat (runVotes (fresh n) [] bs).2) j i =
    acceptedCount n bs :=
  run_tally_sum n hn bs i j hi hj hij

/-- Witness for C6: three ballots, one invalid, on three candidates. -/
theorem tally_pair_sum_invariant_witness :
    tallyAt 3 ((runVotes (fresh 3) [] [[0, 1, 2], [2, 1, 0], [0, 0, 1]]).1.mat
        (runVotes (fresh 3) [] [[0, 1, 2], [2, 1, 0], [0, 0, 1]]).2) 0 2 +
    tallyAt 3 ((runVotes (fresh 3) [] [[0, 1, 2], [2, 1, 0], [0, 0, 1]]).1.mat
        (runVotes (fresh 3) [] [[0, 1, 2], [2, 1, 0], [0, 0, 1]]).2) 2 0 =
    acceptedCount 3 [[0, 1, 2], [2, 1, 0], [0, 0, 1]] :=
  tally_pair_sum_invariant 3 (by decide) [[0, 1, 2], [2, 1, 0], [0, 0, 1]]
    0 2 (by decide) (by decide) (by decide)

/-- C3: after any trace of `Vote` calls on `New n` in which exactly `k`
ballots were accepted, `NumVoters` returns `k`, on the live election and
on a `Result` snapshot taken at that point alike. -/
theorem numvoters_equals_accepted (n : Nat) (hn : 2 ≤ n)
    (bs : List (List Int)) :
    (runVotes (fresh n) [] bs).1.NumVoters (runVotes (fresh n) [] bs).2 =
      acceptedCount n bs ∧
    ((runVotes (fresh n) [] bs).1.Result (runVotes (fresh n) [] bs).2).1.NumVoters
      ((runVotes (fresh n) [] bs).1.Result (runVotes (fresh n) [] bs).2).2.2 =
      acceptedCount n bs := by
  have hnum : (runVotes (fresh n) [] bs).1.num = n := by
    unfold Election.num
    rw [runVotes_n]
    show n - 2 + 2 = n
    omega
  have h1 : (runVotes (fresh n) [] bs).1.NumVoters (runVotes (fresh n) [] bs).2 =
      acceptedCount n bs := by
    rw [numVoters_eq_tally, hnum]
    exact run_tally_sum n hn bs 0 1 (by omega) (by omega) (by omega)
  exact ⟨h1, by rw [result_numvoters]; exact h1⟩

/-- Witness for C3: two of three ballots accepted. -/
theorem numvoters_equals_accepted_witness :
    (runVotes (fresh 3) [] [[0, 1, 2], [1, 1, 1], [2, 0, 1]]).1.NumVoters
      (runVotes (fresh 3) [] [[0, 1, 2], [1, 1, 1], [2, 0, 1]]).2 =
      acceptedCount 3 [[0, 1, 2], [1, 1, 1], [2, 0, 1]] :=
  (numvoters_equals_accepted 3 (by decide) [[0, 1, 2], [1, 1, 1], [2, 0, 1]]).1

/-- C5: an accepted ballot bumps the tally of every pair of ballot
positions `i < j` by exactly one in the `(ballot[i], ballot[j])`
direction, never in the reverse direction, and leaves every entry with no
realizing position pair unchanged. -/
theorem vote_tallies_each_pair_once (e : Election) (s : Store)
    (b : List Int) (hwf : WF e s) (hacc : (e.Vote b s).1 = true) :
    (∀ i j (hij : i < j) (hj : j < (b.map Int.toNat).length),
      tallyAt e.num ((e.Vote b s).2.1.mat (e.Vote b s).2.2)
          ((b.map Int.toNat).get ⟨i, lt_trans hij hj⟩)
          ((b.map Int.toNat).get ⟨j, hj⟩) =
        tallyAt e.num (e.mat s)
          ((b.map Int.toNat).get ⟨i, lt_trans hij hj⟩)
          ((b.map Int.toNat).get ⟨j, hj⟩) + 1 ∧
      tallyAt e.num ((e.Vote b s).2.1.mat (e.Vote b s).2.2)
          ((b.map Int.toNat).get ⟨j, hj⟩)
          ((b.map Int.toNat).get ⟨i, lt_trans hij hj⟩) =
        tallyAt e.num (e.mat s)
          ((b.map Int.toNat).get ⟨j, hj⟩)
          ((b.map Int.toNat).get ⟨i, lt_trans hij hj⟩)) ∧
    (∀ p q, p < e.num → q < e.num →
      (∀ i j (hij : i < j) (hj : j < (b.map Int.toNat).length),
        ¬((b.map Int.toNat).get ⟨i, lt_trans hij hj⟩ = p ∧
          (b.map Int.toNat).get ⟨j, hj⟩ = q)) →
      tallyAt e.num ((e.Vote b s).2.1.mat (e.Vote b s).2.2) p q =
        tallyAt e.num (e.mat s) p q) := by
  have hv : validBallot e.num b = true := by
    rw [← vote_fst e s b]
    exact hacc
  obtain ⟨-, -, -, -, -, htal⟩ := vote_valid_mat e s b hwf hv
  have hnd := natBallot_nodup hv
  have hblt := ballot_entries_lt hv
  constructor
  · intro i j hij hj
    obtain ⟨h1, h2⟩ := pairCount_get (b.map Int.toNat) hnd i j hij hj
    have hpi : (b.map Int.toNat).get ⟨i, lt_trans hij hj⟩ < e.num :=
      hblt _ (List.get_mem _ i (lt_trans hij hj))
    have hqj : (b.map Int.toNat).get ⟨j, hj⟩ < e.num :=
      hblt _ (List.get_mem _ j hj)
    constructor
    · rw [htal _ _ hpi hqj, h1]
    · rw [htal _ _ hqj hpi, h2, Nat.add_zero]
  · intro p q hp hq hnopos
    rw [htal p q hp hq, pairCount_of_no_position _ p q hnopos, Nat.add_zero]

/-- Witness for C5: ballot `[2, 0, 1]` on three candidates; the pair of
positions `(0, 1)` bumps entry `(2, 0)` by one. -/
theorem vote_tallies_each_pair_once_witness :
    tallyAt 3 (((fresh 3).Vote [2, 0, 1] []).2.1.mat
        ((fresh 3).Vote [2, 0, 1] []).2.2) 2 0 =
      tallyAt 3 ((fresh 3).mat []) 2 0 + 1 :=
  ((vote_tallies_each_pair_once (fresh 3) [] [2, 0, 1] (wf_none _ _ rfl)
      (by decide)).1 0 1 (by decide) (by decide)).1

/-- C7: a `Result` snapshot owns an independent copy of the tally: any
trace of `Vote` calls performed on the live election after the snapshot
leaves the snapshot's `Winner()` and `NumVoters()` outcomes exactly as
they were at snapshot time. -/
theorem result_snapshot_immutable (e : Election) (s : Store) (hwf : WF e s)
    (bs : List (List Int)) :
    ((e.Result s).1.Winner
        (runVotes (e.Result s).2.1 (e.Result s).2.2 bs).2 =
      (e.Result s).1.Winner (e.Result s).2.2) ∧
    ((e.Result s).1.NumVoters
        (runVotes (e.Result s).2.1 (e.Result s).2.2 bs).2 =
      (e.Result s).1.NumVoters (e.Result s).2.2) := by
  cases hm : e.m with
  | none =>
      rw [result_uninit e s hm]
      obtain ⟨-, hpres⟩ := runVotes_frame s.length (s.length + 1)
        (by omega) bs ⟨e.n, some s.length⟩
        ((s ++ [List.replicate (e.num * e.num) 0]) ++
          [List.replicate (e.num * e.num) 0]) rfl
      exact snapshot_reads ⟨e.n, some (s.length + 1)⟩ (s.length + 1) rfl
        _ _ hpres
  | some r0 =>
      rw [result_init e s r0 hm]
      have hr0 : r0 < s.length := (hwf r0 hm).1
      obtain ⟨-, hpres⟩ := runVotes_frame r0 s.length (by omega) bs e
        (s ++ [s.getD r0 []]) hm
      exact snapshot_reads ⟨e.n, some s.length⟩ s.length rfl _ _ hpres

/-- Witness for C7: snapshot of a fresh 3-candidate election, then one
vote on the live election. -/
theorem result_snapshot_immutable_witness :
    ((fresh 3).Result []).1.Winner
        (runVotes ((fresh 3).Result []).2.1 ((fresh 3).Result []).2.2
          [[0, 1, 2]]).2 =
      ((fresh 3).Result []).1.Winner ((fresh 3).Result []).2.2 :=
  (result_snapshot_immutable (fresh 3) [] (wf_none _ _ rfl) [[0, 1, 2]]).1

/-- C4: a malformed ballot (anything that is not a permutation of
`0 .. num-1`: wrong length, out-of-range index, duplicate or missing
index) makes `Vote` return `false` and leave the election, the heap — and
hence every tally entry and the voter count — completely unchanged; a
well-formed ballot (a permutation) makes `Vote` return `true`. -/
theorem vote_all_or_nothing (e : Election) (s : Store) (b : List Int) :
    (¬ IsPermBallot e.num b →
      e.Vote b s = (false, e, s) ∧
      (e.Vote b s).2.1.mat (e.Vote b s).2.2 = e.mat s ∧
      (e.Vote b s).2.1.NumVoters (e.Vote b s).2.2 = e.NumVoters s) ∧
    (IsPermBallot e.num b → (e.Vote b s).1 = true) := by
  constructor
  · intro hnp
    have hv : validBallot e.num b = false := by
      rw [← Bool.not_eq_true]
      exact fun hvt => hnp ((validBallot_iff_perm _ _).mp hvt)
    have : e.Vote b s = (false, e, s) := by
      simp [Election.Vote, hv]
    exact ⟨this, by rw [this], by rw [this]⟩
  · intro hp
    have hv : validBallot e.num b = true := (validBallot_iff_perm _ _).mpr hp
    simp only [Election.Vote, hv, if_true]
    split <;> rfl

/-- Witness for C4: a valid 3-candidate ballot is accepted, a duplicated
one is rejected with the state unchanged. -/
theorem vote_all_or_nothing_witness :
    ((fresh 3).Vote [0, 2, 1] []).1 = true ∧
    (fresh 3).Vote [0, 0, 1] [] = (false, fresh 3, []) :=
  ⟨(vote_all_or_nothing (fresh 3) [] [0, 2, 1]).2 (by decide),
   ((vote_all_or_nothing (fresh 3) [] [0, 0, 1]).1 (by decide)).1⟩

end Condorcet
